import Mathlib

/-!
Verification of the `renRec.py` recursive-rename utility.

Strings are embedded as lists of Unicode code points (`List Nat`), restricted
to ASCII case semantics for `str.lower` / `str.upper`.  `re.sub` is embedded
for literal (metacharacter-free) patterns: it replaces every non-overlapping
occurrence of the pattern, scanning left to right, matching either
case-sensitively or case-insensitively (`re.IGNORECASE`).
-/

/-- Python strings, as lists of code points. -/
abbrev Str := List Nat

/-- Code points of a Lean string literal, for concrete examples. -/
def strLit (s : String) : Str := s.toList.map Char.toNat

/-- Python `str.lower`, per character (ASCII). -/
def lowerChar (c : Nat) : Nat := if 65 ≤ c ∧ c ≤ 90 then c + 32 else c

/-- Python `str.upper`, per character (ASCII). -/
def upperChar (c : Nat) : Nat := if 97 ≤ c ∧ c ≤ 122 then c - 32 else c

/-- Python `str.lower`. -/
def lowerStr (s : Str) : Str := s.map lowerChar

/-- Python `str.upper`. -/
def upperStr (s : Str) : Str := s.map upperChar

/-- Case-sensitive character comparison (default `re` matching). -/
def eqChar (a b : Nat) : Bool := a == b

/-- Case-insensitive character comparison (`re.IGNORECASE` matching). -/
def eqCharCI (a b : Nat) : Bool := lowerChar a == lowerChar b

/-- Try to match pattern `p` at the head of `s` under character
comparison `eqc`; on success return the rest of `s` after the match. -/
def dropPat (eqc : Nat → Nat → Bool) : Str → Str → Option Str
  | [], s => some s
  | _ :: _, [] => none
  | a :: p1, b :: s1 => if eqc a b then dropPat eqc p1 s1 else none

/-- Worker for `re.sub` on literal patterns: scan `s` left to right, replacing
each non-overlapping occurrence of `p` by `r`.  `fuel` bounds the recursion
and is initialised to `s.length`, which suffices because every step consumes
at least one character of `s`.  An empty pattern matches at every position
(and once more at the end), as in Python. -/
def substAux (eqc : Nat → Nat → Bool) (p r : Str) : Nat → Str → Str
  | _, [] => if p = [] then r else []
  | 0, s => s
  | fuel + 1, c :: rest =>
    match dropPat eqc p (c :: rest) with
    | some rest2 =>
      if p = [] then r ++ c :: substAux eqc p r fuel rest
      else r ++ substAux eqc p r fuel rest2
    | none => c :: substAux eqc p r fuel rest

/-- `re.sub(old_pat, new_pat, s)` — case-sensitive. -/
def subCS (p r s : Str) : Str := substAux eqChar p r s.length s

/-- `re.sub(old_pat, new_pat, s, flags=re.IGNORECASE)`. -/
def subCI (p r s : Str) : Str := substAux eqCharCI p r s.length s

/-- The new-base-name computation of `_rename_obj` (renRec.py lines 144-160):
a case-sensitive substitution first; when it is a no-op and case handling is
requested, a case-insensitive candidate re-cased to the (uniform) case of the
original base name. -/
def newBaseName (oldPat newPat : Str) (handleLower handleUpper : Bool)
    (baseName : Str) : Str :=
  let newName := subCS oldPat newPat baseName
  if newName = baseName ∧ (handleLower = true ∨ handleUpper = true) then
    let candidName := subCI oldPat newPat baseName
    let n1 :=
      if handleLower = true ∧ lowerStr baseName = baseName then
        lowerStr candidName
      else newName
    if n1 = baseName ∧ handleUpper = true ∧ upperStr baseName = baseName then
      upperStr candidName
    else n1
  else newName

/-- Segments of `s` between the greedy leftmost non-overlapping occurrences
of `p`: the text between consecutive occurrences (modelled from the claim
that every non-overlapping occurrence is replaced, not only the first). -/
def splitSegs (eqc : Nat → Nat → Bool) (p : Str) : Nat → Str → List Str
  | _, [] => [[]]
  | 0, s => [s]
  | fuel + 1, c :: rest =>
    match dropPat eqc p (c :: rest) with
    | some rest2 =>
      if p = [] then [[]]
      else [] :: splitSegs eqc p fuel rest2
    | none =>
      match splitSegs eqc p fuel rest with
      | [] => [[c]]
      | seg :: segs => (c :: seg) :: segs

/-- Rejoin segments, inserting the replacement between consecutive ones. -/
def joinSegs (r : Str) : List Str → Str
  | [] => []
  | [seg] => seg
  | seg :: segs => seg ++ r ++ joinSegs r segs

/-- Case-sensitive occurrence segments of `s`. -/
def segsCS (p s : Str) : List Str := splitSegs eqChar p s.length s

/-- Case-insensitive occurrence segments of `s`. -/
def segsCI (p s : Str) : List Str := splitSegs eqCharCI p s.length s

/-- The path separator code point, `/`. -/
def isSep (c : Nat) : Bool := c == 47

/-- `os.path.split` (POSIX): split at the final separator; the head keeps no
trailing separators unless it is empty or consists only of separators. -/
def splitPath (p : Str) : Str × Str :=
  let r := p.reverse
  let tl := (r.takeWhile (fun c => !(isSep c))).reverse
  let hd0 := (r.dropWhile (fun c => !(isSep c))).reverse
  let hd :=
    if hd0.all isSep then hd0
    else (hd0.reverse.dropWhile isSep).reverse
  (hd, tl)

/-- `os.path.join` (POSIX) on two components. -/
def joinPath (a b : Str) : Str :=
  if b.head? = some 47 then b
  else if a = [] ∨ a.getLast? = some 47 then a ++ b
  else a ++ 47 :: b

/-- The target path computed by `_rename_obj` (renRec.py lines 143-162):
split off the base name, transform it, and rejoin it to the unchanged
directory part. -/
def renameObjNew (oldPat newPat : Str) (handleLower handleUpper : Bool)
    (objName : Str) : Str :=
  joinPath (splitPath objName).1
    (newBaseName oldPat newPat handleLower handleUpper (splitPath objName).2)

mutual

/-- A snapshot of a filesystem entry: a file, or a directory with the list of
its entries (in `os.listdir` order).  Each node stores its base name, except
that a root node stores the path given on the command line. -/
inductive FSTree where
  | file : Str → FSTree
  | dir : Str → FSForest → FSTree

/-- A list of filesystem entries. -/
inductive FSForest where
  | fnil : FSForest
  | fcons : FSTree → FSForest → FSForest

end

mutual

/-- The sequence of full paths whose rename is attempted by
`_rename_tree`/`_rename_obj` (renRec.py lines 171-182), in order: for a
directory, first the renames of the recursively processed children (each
child path joined onto the still-unrenamed directory path), then the
directory itself. -/
def travPaths (pre : Str) : FSTree → List Str
  | FSTree.file n => [joinPath pre n]
  | FSTree.dir n cs => runPaths (joinPath pre n) cs ++ [joinPath pre n]

/-- The sequence of full paths whose rename is attempted by `run`
(renRec.py lines 118-129) over a list of entries, in input order. -/
def runPaths (pre : Str) : FSForest → List Str
  | FSForest.fnil => []
  | FSForest.fcons t ts => travPaths pre t ++ runPaths pre ts

end

mutual

/-- All full paths of the nodes of a tree, each node listed once. -/
def nodePaths (pre : Str) : FSTree → List Str
  | FSTree.file n => [joinPath pre n]
  | FSTree.dir n cs => joinPath pre n :: forestNodePaths (joinPath pre n) cs

/-- All full paths of the nodes of a forest, each node listed once. -/
def forestNodePaths (pre : Str) : FSForest → List Str
  | FSForest.fnil => []
  | FSForest.fcons t ts => nodePaths pre t ++ forestNodePaths pre ts

end

mutual

/-- `SubtreeAt pre t pre2 t2`: within the tree `t` placed at path prefix
`pre`, the node `t2` occurs at path prefix `pre2`. -/
inductive SubtreeAt : Str → FSTree → Str → FSTree → Prop where
  | refl (pre : Str) (t : FSTree) : SubtreeAt pre t pre t
  | step (pre : Str) (n : Str) (cs : FSForest) (pre2 : Str) (t2 : FSTree) :
      InForestAt (joinPath pre n) cs pre2 t2 →
      SubtreeAt pre (FSTree.dir n cs) pre2 t2

/-- `InForestAt pre ts pre2 t2`: within some tree of the forest `ts`, all
placed at path prefix `pre`, the node `t2` occurs at path prefix `pre2`. -/
inductive InForestAt : Str → FSForest → Str → FSTree → Prop where
  | here (pre : Str) (t : FSTree) (ts : FSForest) (pre2 : Str) (t2 : FSTree) :
      SubtreeAt pre t pre2 t2 → InForestAt pre (FSForest.fcons t ts) pre2 t2
  | there (pre : Str) (t : FSTree) (ts : FSForest) (pre2 : Str) (t2 : FSTree) :
      InForestAt pre ts pre2 t2 → InForestAt pre (FSForest.fcons t ts) pre2 t2

end

/-- The argument vector passed to `subprocess.call` by `_rename_obj`
(renRec.py line 166): the configured rename command string is used whole as
the command name, followed by the old and new full paths. -/
def renameArgv (renCmd objName newName : Str) : List Str :=
  [renCmd, objName, newName]

/-- Whitespace for shell-like tokenization. -/
def wsChar (c : Nat) : Bool := c == 32 || c == 9 || c == 10

/-- Quote characters for shell-like tokenization. -/
def quoteChar (c : Nat) : Bool := c == 34 || c == 39

/-- Close the token in progress, if any. -/
def closeTok : Option Str → List Str
  | none => []
  | some t => [t]

/-- Modelled from the spec: worker for whitespace-aware tokenization that
honors quoting.  `mode` is the quote character currently open (if any) and
`acc` the token in progress (if any). -/
def shlexAux (mode : Option Nat) (acc : Option Str) : Str → List Str
  | [] => closeTok acc
  | c :: rest =>
    match mode with
    | some q =>
      if c = q then shlexAux none (some (acc.getD [])) rest
      else shlexAux (some q) (some (acc.getD [] ++ [c])) rest
    | none =>
      if wsChar c then closeTok acc ++ shlexAux none none rest
      else if quoteChar c then shlexAux (some c) (some (acc.getD [])) rest
      else shlexAux none (some (acc.getD [] ++ [c])) rest

/-- Modelled from the spec: split a command template into tokens on
whitespace while respecting quotes, so a quoted multi-word command path
stays one token. -/
def shlexTokens (s : Str) : List Str := shlexAux none none s

/-- Modelled from the spec: the argument vector the spec describes — the
tokenized command template followed by the old and new full paths as the
final two arguments. -/
def renameArgvSpec (renCmd objName newName : Str) : List Str :=
  shlexTokens renCmd ++ [objName, newName]

/-- Outcome of attempting to launch the external rename command. -/
inductive CmdOutcome where
  | exited : Int → CmdOutcome
  | launchFailure : CmdOutcome
deriving DecidableEq

/-- An operating-system error raised into Python. -/
inductive OSErr where
  | fileNotFound : OSErr
deriving DecidableEq

/-- Python `subprocess.call`: returns the child's exit status, whatever it
is, but raises `OSError` when the command cannot be launched at all. -/
def subprocessCall : CmdOutcome → Except OSErr Int
  | CmdOutcome.exited code => Except.ok code
  | CmdOutcome.launchFailure => Except.error OSErr.fileNotFound

/-- The external-command branch of `_rename_obj` (renRec.py lines 165-166):
`subprocess.call` is invoked and its return value is discarded; an exception
propagates. -/
def renameObjExec (oc : CmdOutcome) : Except OSErr Unit :=
  match subprocessCall oc with
  | Except.ok _ => Except.ok ()
  | Except.error e => Except.error e

/-- Processing a list of entries with an external rename command, given each
entry's command outcome: returns how many entries had their rename attempted
and whether the run completed (an uncaught exception aborts it). -/
def runExternal : List CmdOutcome → Nat × Bool
  | [] => (0, true)
  | oc :: rest =>
    match renameObjExec oc with
    | Except.ok _ => ((runExternal rest).1 + 1, (runExternal rest).2)
    | Except.error _ => (1, false)

/-- The command-line option variables of renRec.py, in `add_option` order;
string options are `none` when absent (optparse's default). -/
structure Settings where
  ren_cmd : Option Str
  handle_lower : Bool
  handle_upper : Bool
  new_name_pat : Option Str
  old_name_regex : Option Str

/-- Python truth-value test on an optional string: `None` and the empty
string are falsy. -/
def falsy : Option Str → Bool
  | none => true
  | some s => s.isEmpty

/-- A call to `optparse.OptionParser.error`: usage plus the given message are
printed to standard error and the process exits with status 2. -/
structure UsageError where
  msg : String

/-- `process_command_line` (renRec.py lines 98-110) after option parsing:
validate that an old regex, a new pattern and at least one file argument
were supplied, in that order. -/
def process_command_line (settings : Settings) (args : List Str) :
    Except UsageError (Settings × List Str) :=
  if falsy settings.old_name_regex then
    Except.error ⟨"no old name regular expression specified!"⟩
  else if falsy settings.new_name_pat then
    Except.error ⟨"no new name pattern specified!"⟩
  else if args.isEmpty then
    Except.error ⟨"program takes at least one file; none specified."⟩
  else Except.ok (settings, args)

/-- Build a forest from a list of entry trees. -/
def listToForest : List FSTree → FSForest
  | [] => FSForest.fnil
  | t :: ts => FSForest.fcons t (listToForest ts)

/-- `main` (renRec.py lines 112-115): parse and validate the command line,
and only on success run the renaming over the argument paths; `fsOf` gives
the filesystem snapshot rooted at each argument path.  The result is the
usage error, or the sequence of paths whose rename was attempted. -/
def mainModel (settings : Settings) (fsOf : Str → FSTree) (args : List Str) :
    Except UsageError (List Str) :=
  match process_command_line settings args with
  | Except.error e => Except.error e
  | Except.ok (_, files) => Except.ok (runPaths [] (listToForest (files.map fsOf)))

/-- The process exit status: 2 from `optparse.OptionParser.error`, 0 from a
completed `main`. -/
def mainExitCode : Except UsageError (List Str) → Nat
  | Except.error _ => 2
  | Except.ok _ => 0

/-- The renames attempted by a `main` invocation. -/
def attemptedRenames : Except UsageError (List Str) → List Str
  | Except.error _ => []
  | Except.ok l => l
/-- The contents of the subdirectory in the spec's traversal example. -/
def exampleSubChildren : FSForest :=
  FSForest.fcons (FSTree.file (strLit "old2.txt")) FSForest.fnil

/-- The entries of the spec's traversal example: a directory `root`
holding a file `old1.txt` and a subdirectory `sub` with a file
`old2.txt`. -/
def exampleForest : FSForest :=
  FSForest.fcons
    (FSTree.dir (strLit "root")
      (FSForest.fcons (FSTree.file (strLit "old1.txt"))
        (FSForest.fcons (FSTree.dir (strLit "sub") exampleSubChildren)
          FSForest.fnil)))
    FSForest.fnil


theorem upperChar_lowerChar (c : Nat) (h : upperChar (lowerChar c) = lowerChar c) :
    upperChar c = lowerChar c := by
  by_cases h1 : 65 ≤ c ∧ c ≤ 90
  · unfold lowerChar upperChar at h ⊢
    rw [if_pos h1] at h ⊢
    rw [if_pos (by omega)] at h
    omega
  · unfold lowerChar at h ⊢
    rw [if_neg h1] at h ⊢
    exact h

theorem upperStr_eq_lowerStr (x : Str) (h : upperStr (lowerStr x) = lowerStr x) :
    upperStr x = lowerStr x := by
  induction x with
  | nil => rfl
  | cons a t ih =>
    simp only [upperStr, lowerStr, List.map_cons, List.cons.injEq] at h ⊢
    exact ⟨upperChar_lowerChar a h.1, ih h.2⟩

theorem map_id_of (f : Nat → Nat) (l : Str) (h : ∀ c ∈ l, f c = c) :
    l.map f = l := by
  induction l with
  | nil => rfl
  | cons a t ih =>
    simp only [List.map_cons]
    rw [h a (by simp), ih (fun c hc => h c (by simp [hc]))]

theorem eqCharCI_eq_eqChar (c : Nat) (h1 : lowerChar c = c) (h2 : upperChar c = c)
    (a : Nat) : eqCharCI a c = eqChar a c := by
  have hc1 : ¬(65 ≤ c ∧ c ≤ 90) := by
    intro hc; unfold lowerChar at h1; rw [if_pos hc] at h1; omega
  have hc2 : ¬(97 ≤ c ∧ c ≤ 122) := by
    intro hc; unfold upperChar at h2; rw [if_pos hc] at h2; omega
  unfold eqCharCI eqChar lowerChar
  rw [if_neg hc1]
  by_cases ha : 65 ≤ a ∧ a ≤ 90
  · rw [if_pos ha]
    have e1 : (a + 32 == c) = false := by simp; omega
    have e2 : (a == c) = false := by simp; omega
    rw [e1, e2]
  · rw [if_neg ha]

theorem dropPat_congr (eqc1 eqc2 : Nat → Nat → Bool) :
    ∀ (p s : Str), (∀ c ∈ s, ∀ a, eqc1 a c = eqc2 a c) →
    dropPat eqc1 p s = dropPat eqc2 p s := by
  intro p
  induction p with
  | nil => intro s h; rfl
  | cons a p1 ih =>
    intro s h
    cases s with
    | nil => rfl
    | cons bb s1 =>
      simp only [dropPat]
      rw [h bb (by simp) a]
      split
      · exact ih s1 (fun c hc a2 => h c (by simp [hc]) a2)
      · rfl

theorem dropPat_mem (eqc : Nat → Nat → Bool) :
    ∀ (p s r2 : Str), dropPat eqc p s = some r2 → ∀ c ∈ r2, c ∈ s := by
  intro p
  induction p with
  | nil =>
    intro s r2 h c hc
    simp only [dropPat, Option.some.injEq] at h
    rw [h]; exact hc
  | cons a p1 ih =>
    intro s r2 h c hc
    cases s with
    | nil => simp [dropPat] at h
    | cons bb s1 =>
      simp only [dropPat] at h
      split at h
      · exact List.mem_cons_of_mem bb (ih s1 r2 h c hc)
      · simp at h

theorem substAux_congr (eqc1 eqc2 : Nat → Nat → Bool) (p r : Str) :
    ∀ (fuel : Nat) (s : Str), (∀ c ∈ s, ∀ a, eqc1 a c = eqc2 a c) →
    substAux eqc1 p r fuel s = substAux eqc2 p r fuel s := by
  intro fuel
  induction fuel with
  | zero => intro s h; cases s <;> rfl
  | succ f ih =>
    intro s h
    cases s with
    | nil => rfl
    | cons c rest =>
      have hrest : ∀ d ∈ rest, ∀ a, eqc1 a d = eqc2 a d :=
        fun d hd => h d (by simp [hd])
      simp only [substAux]
      rw [dropPat_congr eqc1 eqc2 p (c :: rest) h]
      cases hm : dropPat eqc2 p (c :: rest) with
      | none => dsimp only; rw [ih rest hrest]
      | some rest2 =>
        have hmem := dropPat_mem eqc2 p (c :: rest) rest2 hm
        dsimp only
        rw [ih rest hrest, ih rest2 (fun d hd => h d (hmem d hd))]

/-- C2: for every base name, old pattern and new pattern such that the
case-sensitive substitution changes the base name, the computed new base
name equals that case-sensitive substitution result, for all values of the
preserveLower and preserveUpper flags; the case-insensitive fallback never
fires when the case-sensitive substitution is not a no-op. -/
theorem renRec_C2 (oldPat newPat : Str) (hL hU : Bool) (b : Str)
    (h : subCS oldPat newPat b ≠ b) :
    newBaseName oldPat newPat hL hU b = subCS oldPat newPat b := by
  unfold newBaseName
  rw [if_neg]
  intro hc
  exact h hc.1

theorem renRec_C2_witness :
    subCS (strLit "a") (strLit "x") (strLit "abc") ≠ strLit "abc" ∧
    newBaseName (strLit "a") (strLit "x") true true (strLit "abc") =
      subCS (strLit "a") (strLit "x") (strLit "abc") :=
  ⟨by decide, renRec_C2 (strLit "a") (strLit "x") true true (strLit "abc") (by decide)⟩

/-- C3: for every entirely-lowercase base name on which the case-sensitive
substitution is a no-op, when preserveLower is enabled the computed new base
name is the lowercase form of the case-insensitive substitution. -/
theorem renRec_C3 (oldPat newPat : Str) (hU : Bool) (b : Str)
    (hlow : lowerStr b = b) (hno : subCS oldPat newPat b = b) :
    newBaseName oldPat newPat true hU b = lowerStr (subCI oldPat newPat b) := by
  unfold newBaseName
  simp only [hno, hlow, and_self, true_and, true_or, if_true, eq_self_iff_true]
  split
  · next hc =>
      obtain ⟨h1, _, h3⟩ := hc
      have key : upperStr (lowerStr (subCI oldPat newPat b)) =
          lowerStr (subCI oldPat newPat b) := by rw [h1, h3]
      exact upperStr_eq_lowerStr (subCI oldPat newPat b) key
  · rfl

theorem renRec_C3_witness :
    lowerStr (strLit "old") = strLit "old" ∧
    subCS (strLit "OLD") (strLit "NEW") (strLit "old") = strLit "old" ∧
    newBaseName (strLit "OLD") (strLit "NEW") true true (strLit "old") =
      lowerStr (subCI (strLit "OLD") (strLit "NEW") (strLit "old")) :=
  ⟨by decide, by decide,
    renRec_C3 (strLit "OLD") (strLit "NEW") true (strLit "old") (by decide) (by decide)⟩

/-- C4: for every entirely-uppercase base name on which the case-sensitive
substitution is a no-op, when preserveUpper is enabled and preserveLower is
disabled or did not change the name, the computed new base name is the
uppercase form of the case-insensitive substitution. -/
theorem renRec_C4 (oldPat newPat : Str) (hL : Bool) (b : Str)
    (hup : upperStr b = b) (hno : subCS oldPat newPat b = b)
    (hld : hL = false ∨ newBaseName oldPat newPat hL false b = b) :
    newBaseName oldPat newPat hL true b = upperStr (subCI oldPat newPat b) := by
  by_cases h1 : hL = true ∧ lowerStr b = b
  · have hld2 : lowerStr (subCI oldPat newPat b) = b := by
      rcases hld with hld | hld
      · rw [hld] at h1
        exact absurd h1.1 (by simp)
      · unfold newBaseName at hld
        simp only [hno] at hld
        rw [if_pos (show True ∧ (hL = true ∨ (false : Bool) = true) from
              ⟨trivial, Or.inl h1.1⟩),
          if_pos h1,
          if_neg (show ¬(lowerStr (subCI oldPat newPat b) = b ∧
              (false : Bool) = true ∧ upperStr b = b) from
            fun hc => Bool.false_ne_true hc.2.1)] at hld
        exact hld
    unfold newBaseName
    simp only [hno]
    rw [if_pos (show True ∧ (hL = true ∨ True) from ⟨trivial, Or.inr trivial⟩),
      if_pos h1,
      if_pos (show lowerStr (subCI oldPat newPat b) = b ∧
          True ∧ upperStr b = b from ⟨hld2, trivial, hup⟩)]
  · unfold newBaseName
    simp only [hno]
    rw [if_pos (show True ∧ (hL = true ∨ True) from ⟨trivial, Or.inr trivial⟩),
      if_neg h1,
      if_pos (show b = b ∧ True ∧ upperStr b = b from ⟨rfl, trivial, hup⟩)]

theorem renRec_C4_witness :
    upperStr (strLit "OLD") = strLit "OLD" ∧
    subCS (strLit "old") (strLit "new") (strLit "OLD") = strLit "OLD" ∧
    newBaseName (strLit "old") (strLit "new") true false (strLit "OLD") = strLit "OLD" ∧
    newBaseName (strLit "old") (strLit "new") true true (strLit "OLD") =
      upperStr (subCI (strLit "old") (strLit "new") (strLit "OLD")) :=
  ⟨by decide, by decide, by decide,
    renRec_C4 (strLit "old") (strLit "new") true (strLit "OLD") (by decide) (by decide)
      (Or.inr (by decide))⟩

/-- C5: a base name that is neither entirely lowercase nor entirely
uppercase, or that contains no cased characters, and whose case-sensitive
substitution is a no-op, is left unchanged for all flag values. -/
theorem renRec_C5 (oldPat newPat : Str) (hL hU : Bool) (b : Str)
    (hcase : (lowerStr b ≠ b ∧ upperStr b ≠ b) ∨
      (∀ c ∈ b, lowerChar c = c ∧ upperChar c = c))
    (hno : subCS oldPat newPat b = b) :
    newBaseName oldPat newPat hL hU b = b := by
  rcases hcase with ⟨ha, hb⟩ | hunc
  · have hA : ¬(hL = true ∧ lowerStr b = b) := fun hc => ha hc.2
    unfold newBaseName
    simp only [hno]
    rw [if_neg hA]
    rw [if_neg (show ¬(b = b ∧ hU = true ∧ upperStr b = b) from
      fun hc => hb hc.2.2)]
    simp
  · have hlb : lowerStr b = b := map_id_of lowerChar b (fun c hc => (hunc c hc).1)
    have hub : upperStr b = b := map_id_of upperChar b (fun c hc => (hunc c hc).2)
    have hci : subCI oldPat newPat b = subCS oldPat newPat b := by
      unfold subCI subCS
      exact substAux_congr eqCharCI eqChar oldPat newPat b.length b
        (fun c hc a => eqCharCI_eq_eqChar c (hunc c hc).1 (hunc c hc).2 a)
    unfold newBaseName
    simp [hci, hno, hlb, hub]

theorem renRec_C5_witness :
    (lowerStr (strLit "MiXed") ≠ strLit "MiXed" ∧
      upperStr (strLit "MiXed") ≠ strLit "MiXed") ∧
    subCS (strLit "foo") (strLit "bar") (strLit "MiXed") = strLit "MiXed" ∧
    newBaseName (strLit "foo") (strLit "bar") true true (strLit "MiXed") =
      strLit "MiXed" :=
  ⟨⟨by decide, by decide⟩, by decide,
    renRec_C5 (strLit "foo") (strLit "bar") true true (strLit "MiXed")
      (Or.inl ⟨by decide, by decide⟩) (by decide)⟩

theorem splitSegs_ne_nil (eqc : Nat → Nat → Bool) (p : Str) :
    ∀ (fuel : Nat) (s : Str), splitSegs eqc p fuel s ≠ [] := by
  intro fuel
  induction fuel with
  | zero => intro s; cases s <;> simp [splitSegs]
  | succ f ih =>
    intro s
    cases s with
    | nil => simp [splitSegs]
    | cons c rest =>
      simp only [splitSegs]
      cases hm : dropPat eqc p (c :: rest) with
      | some rest2 => dsimp only; split <;> simp
      | none =>
        dsimp only
        cases hs : splitSegs eqc p f rest with
        | nil => simp
        | cons seg segs => simp

theorem joinSegs_nil_cons (r : Str) (segs : List Str) (hs : segs ≠ []) :
    joinSegs r ([] :: segs) = r ++ joinSegs r segs := by
  cases segs with
  | nil => exact absurd rfl hs
  | cons seg rest => cases rest <;> simp [joinSegs]

theorem joinSegs_cons_cons (r : Str) (c : Nat) (seg : Str) (segs : List Str) :
    joinSegs r ((c :: seg) :: segs) = c :: joinSegs r (seg :: segs) := by
  cases segs <;> simp [joinSegs]

theorem substAux_eq_joinSegs (eqc : Nat → Nat → Bool) (p r : Str) (hp : p ≠ []) :
    ∀ (fuel : Nat) (s : Str),
    substAux eqc p r fuel s = joinSegs r (splitSegs eqc p fuel s) := by
  intro fuel
  induction fuel with
  | zero =>
    intro s
    cases s with
    | nil => simp [substAux, splitSegs, joinSegs, hp]
    | cons c t => rfl
  | succ f ih =>
    intro s
    cases s with
    | nil => simp [substAux, splitSegs, joinSegs, hp]
    | cons c rest =>
      simp only [substAux, splitSegs]
      cases hm : dropPat eqc p (c :: rest) with
      | some rest2 =>
        dsimp only
        rw [if_neg hp, if_neg hp, ih rest2,
          joinSegs_nil_cons r (splitSegs eqc p f rest2) (splitSegs_ne_nil eqc p f rest2)]
      | none =>
        dsimp only
        rw [ih rest]
        cases hs : splitSegs eqc p f rest with
        | nil => exact absurd hs (splitSegs_ne_nil eqc p f rest)
        | cons seg segs => dsimp only; rw [joinSegs_cons_cons]

/-- C10: the substitution used by the name transformer, in both its
case-sensitive and case-insensitive forms, replaces every non-overlapping
occurrence of the old pattern in the base name (the result is the segments
between the greedy leftmost non-overlapping occurrences, rejoined with the
replacement), not only the first occurrence. -/
theorem renRec_C10 (p r s : Str) (hp : p ≠ []) :
    subCS p r s = joinSegs r (segsCS p s) ∧
    subCI p r s = joinSegs r (segsCI p s) :=
  ⟨substAux_eq_joinSegs eqChar p r hp s.length s,
    substAux_eq_joinSegs eqCharCI p r hp s.length s⟩

theorem renRec_C10_witness :
    strLit "a" ≠ [] ∧
    (subCS (strLit "a") (strLit "xy") (strLit "banana") =
        joinSegs (strLit "xy") (segsCS (strLit "a") (strLit "banana")) ∧
      subCI (strLit "a") (strLit "xy") (strLit "banana") =
        joinSegs (strLit "xy") (segsCI (strLit "a") (strLit "banana"))) :=
  ⟨by decide, renRec_C10 (strLit "a") (strLit "xy") (strLit "banana") (by decide)⟩

mutual

theorem travPaths_perm (pre : Str) (t : FSTree) :
    (travPaths pre t).Perm (nodePaths pre t) := by
  cases t with
  | file n => simp [travPaths, nodePaths]
  | dir n cs =>
    simp only [travPaths, nodePaths]
    exact ((runPaths_perm (joinPath pre n) cs).append_right _).trans
      (List.perm_append_singleton _ _)

theorem runPaths_perm (pre : Str) (ts : FSForest) :
    (runPaths pre ts).Perm (forestNodePaths pre ts) := by
  cases ts with
  | fnil => simp [runPaths, forestNodePaths]
  | fcons t ts2 =>
    simp only [runPaths, forestNodePaths]
    exact (travPaths_perm pre t).append (runPaths_perm pre ts2)

end

mutual

theorem subtree_block (pre : Str) (t : FSTree) (pre2 n2 : Str) (cs2 : FSForest)
    (h : SubtreeAt pre t pre2 (FSTree.dir n2 cs2)) :
    ∃ l1 l2, travPaths pre t =
      l1 ++ (runPaths (joinPath pre2 n2) cs2 ++ [joinPath pre2 n2]) ++ l2 := by
  cases h with
  | refl => exact ⟨[], [], by simp [travPaths]⟩
  | step =>
    rename_i n cs hin
    obtain ⟨l1, l2, he⟩ := forest_block (joinPath pre n) cs pre2 n2 cs2 hin
    exact ⟨l1, l2 ++ [joinPath pre n], by simp [travPaths, he, List.append_assoc]⟩

theorem forest_block (pre : Str) (ts : FSForest) (pre2 n2 : Str) (cs2 : FSForest)
    (h : InForestAt pre ts pre2 (FSTree.dir n2 cs2)) :
    ∃ l1 l2, runPaths pre ts =
      l1 ++ (runPaths (joinPath pre2 n2) cs2 ++ [joinPath pre2 n2]) ++ l2 := by
  cases h with
  | here =>
    rename_i t ts2 hsub
    obtain ⟨l1, l2, he⟩ := subtree_block pre t pre2 n2 cs2 hsub
    exact ⟨l1, l2 ++ runPaths pre ts2, by simp [runPaths, he, List.append_assoc]⟩
  | there =>
    rename_i t ts2 hin
    obtain ⟨l1, l2, he⟩ := forest_block pre ts2 pre2 n2 cs2 hin
    exact ⟨travPaths pre t ++ l1, l2, by simp [runPaths, he, List.append_assoc]⟩

end

/-- C1: in a run over a list of entries, the multiset of paths whose rename
is attempted is exactly the multiset of all entries in the traversal (each
visited and attempted exactly once), and for every directory processed
anywhere in the run, the rename events of all of that directory's
descendants (again, each exactly once) form a contiguous block immediately
preceding the directory's own rename. -/
theorem renRec_C1 (entries : FSForest) :
    (runPaths [] entries).Perm (forestNodePaths [] entries) ∧
    ∀ (pre2 n2 : Str) (cs2 : FSForest),
      InForestAt [] entries pre2 (FSTree.dir n2 cs2) →
      (∃ l1 l2, runPaths [] entries =
        l1 ++ (runPaths (joinPath pre2 n2) cs2 ++ [joinPath pre2 n2]) ++ l2) ∧
      (runPaths (joinPath pre2 n2) cs2).Perm
        (forestNodePaths (joinPath pre2 n2) cs2) := by
  refine ⟨runPaths_perm [] entries, ?_⟩
  intro pre2 n2 cs2 hin
  exact ⟨forest_block [] entries pre2 n2 cs2 hin,
    runPaths_perm (joinPath pre2 n2) cs2⟩

theorem renRec_C1_witness :
    (∃ l1 l2, runPaths [] exampleForest =
      l1 ++ (runPaths (joinPath (joinPath [] (strLit "root")) (strLit "sub"))
          exampleSubChildren ++
        [joinPath (joinPath [] (strLit "root")) (strLit "sub")]) ++ l2) ∧
    (runPaths (joinPath (joinPath [] (strLit "root")) (strLit "sub"))
        exampleSubChildren).Perm
      (forestNodePaths (joinPath (joinPath [] (strLit "root")) (strLit "sub"))
        exampleSubChildren) :=
  (renRec_C1 exampleForest).2 (joinPath [] (strLit "root")) (strLit "sub")
    exampleSubChildren
    (InForestAt.here _ _ _ _ _ (SubtreeAt.step _ _ _ _ _
      (InForestAt.there _ _ _ _ _ (InForestAt.here _ _ _ _ _
        (SubtreeAt.refl _ _)))))

theorem takeWhile_append_of_all (q : Nat → Bool) (l : Str) (x : Nat) (t : Str)
    (hl : ∀ c ∈ l, q c = true) (hx : q x = false) :
    (l ++ x :: t).takeWhile q = l := by
  induction l with
  | nil => simp [List.takeWhile_cons, hx]
  | cons a l2 ih =>
    have ha := hl a (List.mem_cons_self a l2)
    simp [List.takeWhile_cons, ha, ih (fun c hc => hl c (by simp [hc]))]

theorem dropWhile_append_of_all (q : Nat → Bool) (l : Str) (x : Nat) (t : Str)
    (hl : ∀ c ∈ l, q c = true) (hx : q x = false) :
    (l ++ x :: t).dropWhile q = x :: t := by
  induction l with
  | nil => simp [List.dropWhile_cons, hx]
  | cons a l2 ih =>
    have ha := hl a (List.mem_cons_self a l2)
    simp [List.dropWhile_cons, ha, ih (fun c hc => hl c (by simp [hc]))]

theorem takeWhile_of_all (q : Nat → Bool) (l : Str) (hl : ∀ c ∈ l, q c = true) :
    l.takeWhile q = l := by
  induction l with
  | nil => rfl
  | cons a l2 ih =>
    have ha := hl a (List.mem_cons_self a l2)
    simp [List.takeWhile_cons, ha, ih (fun c hc => hl c (by simp [hc]))]

theorem dropWhile_of_all (q : Nat → Bool) (l : Str) (hl : ∀ c ∈ l, q c = true) :
    l.dropWhile q = [] := by
  induction l with
  | nil => rfl
  | cons a l2 ih =>
    have ha := hl a (List.mem_cons_self a l2)
    simp [List.dropWhile_cons, ha, ih (fun c hc => hl c (by simp [hc]))]

theorem dropWhile_head_false (q : Nat → Bool) :
    ∀ l : Str, l.dropWhile q = [] ∨
      ∃ c t, l.dropWhile q = c :: t ∧ q c = false := by
  intro l
  induction l with
  | nil => exact Or.inl rfl
  | cons a l2 ih =>
    by_cases ha : q a = true
    · simpa [List.dropWhile_cons, ha] using ih
    · right
      exact ⟨a, l2, by simp [List.dropWhile_cons, ha],
        by simpa using ha⟩

theorem splitPath_fst_norm (p : Str) :
    ((splitPath p).1.all isSep = true) ∨
    (∃ c t, (splitPath p).1.reverse = c :: t ∧ isSep c = false) := by
  simp only [splitPath]
  split
  · next h => exact Or.inl h
  · next h =>
    rcases dropWhile_head_false isSep
        ((p.reverse.dropWhile fun c => !(isSep c)).reverse.reverse) with h2 | ⟨c, t, h2, hc⟩
    · left
      rw [h2]
      rfl
    · right
      exact ⟨c, t, by rw [List.reverse_reverse]; exact h2, hc⟩

theorem splitPath_no_sep (b : Str) (hb : ∀ c ∈ b, isSep c = false) :
    splitPath b = ([], b) := by
  have hq : ∀ c ∈ b.reverse, (!(isSep c)) = true := by
    intro c hc
    rw [List.mem_reverse] at hc
    simp [hb c hc]
  simp only [splitPath]
  rw [takeWhile_of_all _ _ hq, dropWhile_of_all _ _ hq]
  simp

theorem splitPath_parts (e b : Str) (x : Nat) (t1 : Str)
    (he : e.reverse = b.reverse ++ x :: t1)
    (hb : ∀ c ∈ b, isSep c = false) (hx : isSep x = true) :
    splitPath e =
      ((if (x :: t1).all isSep then (x :: t1).reverse
        else (t1.dropWhile isSep).reverse), b) := by
  have hq : ∀ c ∈ b.reverse, (!(isSep c)) = true := by
    intro c hc
    rw [List.mem_reverse] at hc
    simp [hb c hc]
  simp only [splitPath, he]
  rw [takeWhile_append_of_all _ _ _ _ hq (by simp [hx]),
    dropWhile_append_of_all _ _ _ _ hq (by simp [hx])]
  rw [List.all_reverse, List.reverse_reverse]
  simp only [List.reverse_reverse, List.dropWhile_cons, hx, if_true]

theorem splitPath_joinPath (d b : Str)
    (hnorm : d.all isSep = true ∨ ∃ c t, d.reverse = c :: t ∧ isSep c = false)
    (hb : ∀ c ∈ b, isSep c = false) :
    splitPath (joinPath d b) = (d, b) := by
  have hbh : ¬(b.head? = some 47) := by
    cases b with
    | nil => simp
    | cons c t =>
      simp only [List.head?_cons, Option.some.injEq]
      intro hc
      have hcs := hb c (List.mem_cons_self c t)
      rw [hc] at hcs
      simp [isSep] at hcs
  rcases hnorm with hall | ⟨c0, t0, hrev, hc0⟩
  · cases hd : d.reverse with
    | nil =>
      have hdnil : d = [] := List.reverse_eq_nil_iff.mp hd
      subst hdnil
      rw [joinPath, if_neg hbh, if_pos (Or.inl rfl), List.nil_append]
      exact splitPath_no_sep b hb
    | cons x t1 =>
      have hxd : x ∈ d := by
        rw [← List.mem_reverse, hd]
        exact List.mem_cons_self x t1
      have hxs : isSep x = true := List.all_eq_true.mp hall x hxd
      have hx47 : x = 47 := by simpa [isSep] using hxs
      have hlast : d.getLast? = some 47 := by
        rw [← List.head?_reverse, hd, List.head?_cons, hx47]
      rw [joinPath, if_neg hbh, if_pos (Or.inr hlast)]
      rw [splitPath_parts (d ++ b) b x t1
        (by rw [List.reverse_append, hd]) hb hxs]
      have hall2 : (x :: t1).all isSep = true := by
        rw [← hd, List.all_reverse]
        exact hall
      rw [if_pos hall2, ← hd, List.reverse_reverse]
  · have hdne : d ≠ [] := by
      intro hdnil
      rw [hdnil] at hrev
      simp at hrev
    have hlast : d.getLast? = some c0 := by
      rw [← List.head?_reverse, hrev, List.head?_cons]
    have hc047 : ¬(c0 = 47) := by
      intro hc
      rw [hc] at hc0
      simp [isSep] at hc0
    rw [joinPath, if_neg hbh, if_neg (by
      rintro (h | h)
      · exact hdne h
      · rw [hlast] at h
        exact hc047 (Option.some.injEq _ _ ▸ h))]
    rw [splitPath_parts (d ++ 47 :: b) b 47 d.reverse
      (by simp [List.reverse_append]) hb (by simp [isSep])]
    have hnall : ¬((47 :: d.reverse).all isSep = true) := by
      intro hall2
      have := List.all_eq_true.mp hall2 c0 (by
        rw [hrev]
        exact List.mem_cons_of_mem 47 (List.mem_cons_self c0 t0))
      exact hc047 (by simpa [isSep] using this)
    rw [if_neg hnall, hrev, List.dropWhile_cons, if_neg (by simp [hc0]),
      ← hrev, List.reverse_reverse]

/-- C9: for every entry processed, the rename changes only the entry's base
name: the target path is built by applying the name transformer to the final
path component alone and rejoining it to the original directory part, and
(whenever the transformed base name contains no separator) splitting the
target path yields the same parent directory path as the original full
path. -/
theorem renRec_C9 (oldPat newPat : Str) (hL hU : Bool) (obj : Str)
    (hsep : ∀ c ∈ newBaseName oldPat newPat hL hU (splitPath obj).2,
      isSep c = false) :
    renameObjNew oldPat newPat hL hU obj =
      joinPath (splitPath obj).1
        (newBaseName oldPat newPat hL hU (splitPath obj).2) ∧
    splitPath (renameObjNew oldPat newPat hL hU obj) =
      ((splitPath obj).1,
        newBaseName oldPat newPat hL hU (splitPath obj).2) := by
  refine ⟨rfl, ?_⟩
  unfold renameObjNew
  exact splitPath_joinPath _ _ (splitPath_fst_norm obj) hsep

theorem renRec_C9_witness :
    (∀ c ∈ newBaseName (strLit "b") (strLit "c") false false
        (splitPath (strLit "a/b.txt")).2, isSep c = false) ∧
    splitPath (renameObjNew (strLit "b") (strLit "c") false false
        (strLit "a/b.txt")) =
      ((splitPath (strLit "a/b.txt")).1,
        newBaseName (strLit "b") (strLit "c") false false
          (splitPath (strLit "a/b.txt")).2) :=
  ⟨by decide,
    (renRec_C9 (strLit "b") (strLit "c") false false (strLit "a/b.txt")
      (by decide)).2⟩

/-- C6 counterexample: with the command template `mv -v`, the argument
vector actually built by the code keeps the template as a single token,
whereas the tokenization the claim describes would split it into `mv` and
`-v` before appending the two paths. -/
theorem renRec_C6_counterexample :
    renameArgv (strLit "mv -v") (strLit "a") (strLit "b") ≠
      renameArgvSpec (strLit "mv -v") (strLit "a") (strLit "b") := by
  decide

/-- C6 (amended): the code performs no tokenization of the configured rename
command: the template is passed whole as the command name, with the entry's
old and new full paths appended as the final two arguments.  This agrees
with the claimed whitespace-aware, quote-honoring tokenization exactly when
the template contains no whitespace and no quote characters (and is
nonempty). -/
theorem renRec_C6 (cmd objName newName : Str) (hne : cmd ≠ [])
    (hplain : ∀ c ∈ cmd, wsChar c = false ∧ quoteChar c = false) :
    renameArgv cmd objName newName = renameArgvSpec cmd objName newName := by
  have key : ∀ (s : Str), s ≠ [] → (∀ c ∈ s, wsChar c = false ∧ quoteChar c = false) →
      ∀ (acc : Str), shlexAux none (some acc) s = [acc ++ s] := by
    intro s
    induction s with
    | nil => intro hs; exact absurd rfl hs
    | cons c rest ih =>
      intro _ hp acc
      have hc := hp c (List.mem_cons_self c rest)
      rw [shlexAux, hc.1]
      simp only [Bool.false_eq_true, if_false, hc.2, Option.getD_some]
      cases rest with
      | nil => simp [shlexAux, closeTok]
      | cons c2 rest2 =>
        rw [ih (by simp) (fun d hd => hp d (by simp [hd])) (acc ++ [c])]
        simp
  cases cmd with
  | nil => exact absurd rfl hne
  | cons c rest =>
    have hc := hplain c (List.mem_cons_self c rest)
    unfold renameArgv renameArgvSpec shlexTokens
    rw [shlexAux, hc.1]
    simp only [Bool.false_eq_true, if_false, hc.2, Option.getD_none]
    cases rest with
    | nil => simp [shlexAux, closeTok]
    | cons c2 rest2 =>
      simp only [List.nil_append]
      rw [key (c2 :: rest2) (by simp) (fun d hd => hplain d (by simp [hd])) [c]]
      simp

theorem renRec_C6_witness :
    strLit "mv" ≠ [] ∧
    (∀ c ∈ strLit "mv", wsChar c = false ∧ quoteChar c = false) ∧
    renameArgv (strLit "mv") (strLit "a") (strLit "b") =
      renameArgvSpec (strLit "mv") (strLit "a") (strLit "b") :=
  ⟨by decide, by decide,
    renRec_C6 (strLit "mv") (strLit "a") (strLit "b") (by decide) (by decide)⟩

/-- C7 counterexample: when the external command cannot be launched for the
first of two entries, `subprocess.call` raises, the exception propagates,
and the second entry is never processed — the run attempts only 1 of the 2
renames and aborts, against the claim that processing continues with the
next entry in every case. -/
theorem renRec_C7_counterexample :
    runExternal [CmdOutcome.launchFailure, CmdOutcome.exited 0] ≠ (2, true) := by
  decide

/-- C7 (amended): a nonzero exit status of the configured external rename
command never aborts the traversal — whenever every entry's command can be
launched (whatever its exit status), all entries have their rename attempted
and the run completes; but a command that cannot be launched raises an
uncaught OSError and aborts the remaining traversal. -/
theorem renRec_C7 (ocs : List CmdOutcome)
    (h : ∀ oc ∈ ocs, oc ≠ CmdOutcome.launchFailure) :
    runExternal ocs = (ocs.length, true) := by
  induction ocs with
  | nil => rfl
  | cons oc rest ih =>
    have hoc := h oc (List.mem_cons_self oc rest)
    cases oc with
    | exited code =>
      simp [runExternal, renameObjExec, subprocessCall,
        ih (fun o ho => h o (by simp [ho]))]
    | launchFailure => exact absurd rfl hoc

theorem renRec_C7_witness :
    (∀ oc ∈ [CmdOutcome.exited 1, CmdOutcome.exited 0],
      oc ≠ CmdOutcome.launchFailure) ∧
    runExternal [CmdOutcome.exited 1, CmdOutcome.exited 0] = (2, true) :=
  ⟨by decide,
    renRec_C7 [CmdOutcome.exited 1, CmdOutcome.exited 0] (by decide)⟩

/-- C8: for every invocation missing the old-regex option, missing the
new-pattern option, or given zero file operands, validation fails with a
usage error (printed to standard error by `optparse`), the process exit
status is 2 (nonzero), and no rename is attempted. -/
theorem renRec_C8 (settings : Settings) (fsOf : Str → FSTree) (args : List Str)
    (h : falsy settings.old_name_regex = true ∨
      falsy settings.new_name_pat = true ∨ args = []) :
    mainExitCode (mainModel settings fsOf args) = 2 ∧
    attemptedRenames (mainModel settings fsOf args) = [] := by
  by_cases h1 : falsy settings.old_name_regex = true
  · simp [mainModel, process_command_line, h1, mainExitCode, attemptedRenames]
  · by_cases h2 : falsy settings.new_name_pat = true
    · simp [mainModel, process_command_line, h1, h2, mainExitCode,
        attemptedRenames]
    · have h3 : args = [] := by
        rcases h with h | h | h
        · exact absurd h h1
        · exact absurd h h2
        · exact h
      simp [mainModel, process_command_line, h1, h2, h3, mainExitCode,
        attemptedRenames]

theorem renRec_C8_witness :
    (falsy (Settings.mk none false false (some (strLit "x")) none).old_name_regex
        = true ∨
      falsy (Settings.mk none false false (some (strLit "x")) none).new_name_pat
        = true ∨
      ([strLit "f"] : List Str) = []) ∧
    mainExitCode (mainModel (Settings.mk none false false (some (strLit "x")) none)
      (fun _ => FSTree.file []) [strLit "f"]) = 2 ∧
    attemptedRenames (mainModel (Settings.mk none false false (some (strLit "x")) none)
      (fun _ => FSTree.file []) [strLit "f"]) = [] :=
  ⟨Or.inl (by decide),
    renRec_C8 (Settings.mk none false false (some (strLit "x")) none)
      (fun _ => FSTree.file []) [strLit "f"] (Or.inl (by decide))⟩
